import Mathlib

/-!
# Verification of `FileBackedHistory` (src/src/history/file_backed.rs)

Shallow embedding of the file-backed history backend: command-line texts are
`List Char`, the `IndexMap<HistoryItemId, String>` store is a list of
`(Int × List Char)` pairs operated on with `IndexMap` semantics (insert
updates in place when the key exists, appends otherwise), and the `sync`
engine is modelled as a pure function over the store, the list of lines in
the backing file, and an environment recording which fallible I/O step
succeeds.  `std::hash::DefaultHasher`'s finish over `(counter, line)` is
kept abstract as a function parameter `hash : Int → List Char → Int`; every
theorem below holds for every such function.
-/

namespace Reedline

/-- Command-line texts, file lines and patterns: Rust `String` as its
character sequence. -/
abbrev Str := List Char

/-- `NEWLINE_ESCAPE`: the 4-character sentinel `<\n>` substituted for
literal newlines. -/
def NEWLINE_ESCAPE : Str := ['<', '\\', 'n', '>']

/-- `encode_entry`: `s.replace('\n', NEWLINE_ESCAPE)`, character by
character. -/
def encodeText : Str → Str
  | [] => []
  | c :: rest =>
    if c = '\n' then '<' :: '\\' :: 'n' :: '>' :: encodeText rest
    else c :: encodeText rest

/-- `fn encode_entry(s: &str) -> String`. -/
def encode_entry (s : Str) : Str := encodeText s

/-- The text part of `decode_entry`: `s.replace(NEWLINE_ESCAPE, "\n")`,
replacing non-overlapping occurrences of the sentinel left to right. -/
def decodeText : Str → Str
  | c1 :: c2 :: c3 :: c4 :: rest =>
    if c1 = '<' ∧ c2 = '\\' ∧ c3 = 'n' ∧ c4 = '>'
    then '\n' :: decodeText rest
    else c1 :: decodeText (c2 :: c3 :: c4 :: rest)
  | c :: rest => c :: decodeText rest
  | [] => []

/-- Whether a text contains the sentinel `<\n>` as a substring. -/
def hasNewlineEscape : Str → Bool
  | c1 :: c2 :: c3 :: c4 :: rest =>
    if c1 = '<' ∧ c2 = '\\' ∧ c3 = 'n' ∧ c4 = '>' then true
    else hasNewlineEscape (c2 :: c3 :: c4 :: rest)
  | _ => false

/-- `fn decode_entry(s: &str, counter: &mut i64) -> (HistoryItemId, String)`.
The id is the hash of the counter followed by the line (`DefaultHasher`
abstracted as `hash`); the second component is the value of the `counter`
reference after the call — the Rust body reads `counter` but never writes
it back. -/
def decode_entry (hash : Int → Str → Int) (s : Str) (counter : Int) :
    (Int × Str) × Int :=
  ((hash counter s, decodeText s), counter)

/-! ## IndexMap operations

`indexmap::IndexMap` over its key-value pairs in iteration (insertion)
order. -/

/-- `IndexMap::insert`: update the value in place when the key exists,
append at the end otherwise. -/
def indexInsert (m : List (Int × Str)) (k : Int) (v : Str) : List (Int × Str) :=
  if m.any (fun p => p.1 = k) then
    m.map (fun p => if p.1 = k then (k, v) else p)
  else m ++ [(k, v)]

/-- `IndexMap::get_index_of`: position of a key in iteration order. -/
def getIndexOf (m : List (Int × Str)) (k : Int) : Option Nat :=
  m.findIdx? (fun p => p.1 = k)

/-- `IndexMap::get`: value stored at a key. -/
def getValue (m : List (Int × Str)) (k : Int) : Option Str :=
  (m.find? (fun p => p.1 = k)).map (fun p => p.2)

/-- `IndexMap::extend` over a sequence of pairs: repeated insert. -/
def indexExtend (m : List (Int × Str)) (xs : List (Int × Str)) : List (Int × Str) :=
  xs.foldl (fun acc p => indexInsert acc p.1 p.2) m

/-- `Extend`-collecting an iterator of decoded `(id, text)` pairs into a
fresh `IndexMap`, threading the `counter` variable of `sync`'s read loop
through each `decode_entry` call (the loop starts at `counter = 0`). -/
def readForeign (hash : Int → Str → Int) (lines : List Str) :
    List (Int × Str) × Int :=
  lines.foldl
    (fun acc line =>
      let d := decode_entry hash line acc.2
      (indexInsert acc.1 d.1.1 d.1.2, d.2))
    ([], 0)

/-! ## Data model -/

/-- `HistoryItem`: this backend only ever fills `id` and `command_line`;
every auxiliary field stays absent. Timestamps and durations are opaque. -/
structure HistoryItem where
  id : Int
  start_timestamp : Option Int
  command_line : Str
  session_id : Option Int
  hostname : Option Str
  cwd : Option Str
  duration : Option Int
  exit_status : Option Int
  more_info : Option Unit
deriving DecidableEq, Repr

/-- `struct FileBackedHistory`. The `PathBuf` is abstracted to whether a
file is configured; the file's line contents are passed to `sync`
separately. The rng is omitted (no claim concerns `generate_id`). -/
structure FileBackedHistory where
  capacity : Nat
  entries : List (Int × Str)
  hasFile : Bool
  last_on_disk : Option Int
  session : Option Int
deriving DecidableEq, Repr

/-- `ReedlineErrorVariants`, restricted to the variants this backend
constructs. -/
inductive ReedlineErrorVariants where
  | historyFeatureUnsupported (history : String) (feature : String)
  | otherHistoryError (msg : String)
  | ioError
deriving DecidableEq, Repr

/-- `FileBackedHistory::construct_entry`: only the command line is stored. -/
def construct_entry (id : Int) (command_line : Str) : HistoryItem :=
  { id := id
    start_timestamp := none
    command_line := command_line
    session_id := none
    hostname := none
    cwd := none
    duration := none
    exit_status := none
    more_info := none }

/-- `usize::MAX` on a 64-bit target. -/
def USIZE_MAX : Nat := 2 ^ 64 - 1

/-- `FileBackedHistory::new`. -/
def FileBackedHistory.new (capacity : Nat) :
    Except ReedlineErrorVariants FileBackedHistory :=
  if capacity = USIZE_MAX then
    .error (.otherHistoryError "History capacity too large to be addressed safely")
  else
    .ok { capacity := capacity
          entries := []
          hasFile := false
          last_on_disk := none
          session := none }

/-! ## save / replace / load / update / delete / clear / session -/

/-- The admission guard of `save`: the last stored text differs from the
new text (or the store is empty), the text is non-empty, and the capacity
is positive. -/
def saveGuard (h : FileBackedHistory) (entry : Str) : Bool :=
  (match h.entries.getLast? with
   | some p => decide (p.2 ≠ entry)
   | none => true)
  && decide (entry ≠ []) && decide (0 < h.capacity)

/-- `History::save for FileBackedHistory`: append-with-dedup.  The Rust
function always returns `Ok(())`; the `Except` mirrors its signature. -/
def save (h : FileBackedHistory) (item : HistoryItem) :
    Except ReedlineErrorVariants FileBackedHistory :=
  let entry := item.command_line
  if saveGuard h entry then
    let entries1 :=
      if h.capacity ≤ h.entries.length then
        match h.entries with
        | [] => h.entries
        | p :: _ => h.entries.eraseP (fun q => q.1 = p.1)
      else h.entries
    .ok { h with entries := indexInsert entries1 item.id entry }
  else .ok h

/-- `History::replace for FileBackedHistory`: delegates to `save`. -/
def replace (h : FileBackedHistory) (item : HistoryItem) :
    Except ReedlineErrorVariants FileBackedHistory :=
  save h item

/-- `History::load for FileBackedHistory`. -/
def load (h : FileBackedHistory) (id : Int) :
    Except ReedlineErrorVariants HistoryItem :=
  match getValue h.entries id with
  | some text => .ok (construct_entry id text)
  | none => .error (.otherHistoryError "Item does not exist")

/-- `History::update for FileBackedHistory`: always the
feature-unsupported error, `self` untouched (returned unchanged as the
second component). -/
def update (h : FileBackedHistory) (_id : Int)
    (_updater : HistoryItem → HistoryItem) :
    Except ReedlineErrorVariants Unit × FileBackedHistory :=
  (.error (.historyFeatureUnsupported "FileBackedHistory" "updating entries"), h)

/-- `History::delete for FileBackedHistory`: always the
feature-unsupported error, `self` untouched. -/
def delete (h : FileBackedHistory) (_id : Int) :
    Except ReedlineErrorVariants Unit × FileBackedHistory :=
  (.error (.historyFeatureUnsupported "FileBackedHistory" "removing entries"), h)

/-- `History::clear for FileBackedHistory`: the entries and the sync
marker are cleared first; only then is the backing file removed, a failure
of which (`removeOk = false`) is returned as an I/O error. -/
def clear (h : FileBackedHistory) (removeOk : Bool) :
    Except ReedlineErrorVariants Unit × FileBackedHistory :=
  let h' := { h with entries := [], last_on_disk := none }
  if h.hasFile ∧ removeOk = false then (.error .ioError, h')
  else (.ok (), h')

/-- `History::session for FileBackedHistory`. -/
def sessionOf (h : FileBackedHistory) : Option Int := h.session

/-! ## Search -/

/-- `CommandLineSearch`. -/
inductive CommandLineSearch where
  | Prefix (p : Str)
  | Substring (p : Str)
  | Exact (p : Str)
deriving DecidableEq, Repr

/-- `SearchDirection`. -/
inductive SearchDirection where
  | Backward
  | Forward
deriving DecidableEq, Repr

/-- `SearchFilter`: the fields this backend inspects. -/
structure SearchFilter where
  command_line : Option CommandLineSearch
  not_command_line : Option Str
  hostname : Option Str
  cwd_exact : Option Str
  cwd_prefix : Option Str
  exit_successful : Option Bool
deriving DecidableEq, Repr

/-- `SearchQuery`. Times are opaque (always rejected by this backend). -/
structure SearchQuery where
  direction : SearchDirection
  start_time : Option Int
  end_time : Option Int
  start_id : Option Int
  end_id : Option Int
  limit : Option Int
  filter : SearchFilter
deriving DecidableEq, Repr

/-- Outcome of `search`: a value, a returned error, or a crash of the
`assert!` / an `unwrap` panic. -/
inductive SearchOutcome where
  | ok (items : List HistoryItem)
  | err (e : ReedlineErrorVariants)
  | panicked
deriving DecidableEq, Repr

/-- The time-filter rejection guard of `search`. -/
def timeUnsupported (q : SearchQuery) : Bool :=
  q.start_time.isSome || q.end_time.isSome

/-- The extra-info-filter rejection guard of `search`. -/
def extraUnsupported (q : SearchQuery) : Bool :=
  q.filter.hostname.isSome || q.filter.cwd_exact.isSome
    || q.filter.cwd_prefix.isSome || q.filter.exit_successful.isSome

/-- The `(start_id, end_id)` pair after the Backward-direction swap. -/
def swappedIds (q : SearchQuery) : Option Int × Option Int :=
  match q.direction with
  | .Backward => (q.end_id, q.start_id)
  | .Forward => (q.start_id, q.end_id)

/-- Resolve an optional identifier bound to a position, with the given
default when absent and a not-found error when present but missing. -/
def resolveIdx (h : FileBackedHistory) (oid : Option Int) (dflt : Nat)
    (msg : String) : Except ReedlineErrorVariants Nat :=
  match oid with
  | some i =>
    match getIndexOf h.entries i with
    | some idx => .ok idx
    | none => .error (.otherHistoryError msg)
  | none => .ok dflt

/-- The per-entry filter closure of `search`: the command-line predicate
followed by the `not_command_line` exclusion, yielding the constructed
item. -/
def filterEntry (f : SearchFilter) (p : Int × Str) : Option HistoryItem :=
  let str_matches :=
    match f.command_line with
    | some (.Prefix pat) => pat.isPrefixOf p.2
    | some (.Substring pat) => decide (pat <:+: p.2)
    | some (.Exact pat) => p.2 == pat
    | none => true
  if str_matches then
    match f.not_command_line with
    | some s => if p.2 == s then none else some (construct_entry p.1 p.2)
    | none => some (construct_entry p.1 p.2)
  else none

/-- `limit.and_then(|l| usize::try_from(l).ok()).unwrap_or(usize::MAX)`:
a negative limit fails the conversion and also means `usize::MAX`. -/
def limitToNat : Option Int → Nat
  | some l => if 0 ≤ l then l.toNat else USIZE_MAX
  | none => USIZE_MAX

/-- `History::search for FileBackedHistory`. -/
def search (h : FileBackedHistory) (q : SearchQuery) : SearchOutcome :=
  if timeUnsupported q then
    .err (.historyFeatureUnsupported "FileBackedHistory" "filtering by time")
  else if extraUnsupported q then
    .err (.historyFeatureUnsupported "FileBackedHistory" "filtering by extra info")
  else
    match resolveIdx h (swappedIds q).1 0
        "provided 'start_id' item was not found" with
    | .error e => .err e
    | .ok start_idx =>
      match resolveIdx h (swappedIds q).2 (h.entries.length - 1)
          "provided 'end_id' item was not found" with
      | .error e => .err e
      | .ok end_idx =>
        if start_idx ≤ end_idx then
          let iter := (h.entries.drop start_idx).take (1 + end_idx - start_idx)
          let lim := limitToNat q.limit
          .ok (match q.direction with
            | .Backward => (iter.reverse.filterMap (filterEntry q.filter)).take lim
            | .Forward => (iter.filterMap (filterEntry q.filter)).take lim)
        else .panicked

/-- Outcome of `count`. -/
inductive CountOutcome where
  | ok (n : Nat)
  | err (e : ReedlineErrorVariants)
  | panicked
deriving DecidableEq, Repr

/-- `History::count for FileBackedHistory`: the length of `search`'s
result. -/
def count (h : FileBackedHistory) (q : SearchQuery) : CountOutcome :=
  match search h q with
  | .ok items => .ok items.length
  | .err e => .err e
  | .panicked => .panicked

/-! ## Sync

`sync` is modelled over the list of lines currently in the backing file
and an environment that says which fallible I/O step succeeds.  The Rust
function only touches `self` after the last fallible operation, which is
what Claim 3 is about; the model mirrors the code's control flow, with
every `?` early return carrying the store as it stands at that point. -/

/-- Success/failure of each fallible I/O step of `sync`, in program order:
`create_dir_all`, `open`, the lock acquisition, the read loop, the write
loop, `flush`, and `stream_position`/`set_len`. -/
structure FsEnv where
  createDirOk : Bool
  openOk : Bool
  lockOk : Bool
  readOk : Bool
  writeOk : Bool
  flushOk : Bool
  truncOk : Bool
deriving DecidableEq, Repr

/-- The all-success environment. -/
def envOK : FsEnv :=
  { createDirOk := true, openOk := true, lockOk := true, readOk := true
    writeOk := true, flushOk := true, truncOk := true }

/-- Outcome of `sync`: the updated store and file lines, an I/O error
carrying the store as the fallible step left it, or a crash (the
`.unwrap()` on `get_index_of`, or `IndexMap::split_off` out of range). -/
inductive SyncOutcome where
  | ok (h : FileBackedHistory) (fileLines : List Str)
  | ioErr (h : FileBackedHistory)
  | panicked
deriving DecidableEq, Repr

/-- The tail of `sync` after the file has been written: extend the
retained foreign entries with the drained pending entries, adopt them as
the store, and advance the sync marker to the last entry. -/
def finishSync (h : FileBackedHistory) (foreign_entries : List (Int × Str))
    (lastIdx : Option Nat) (newFile : List Str) : SyncOutcome :=
  let merged :=
    match lastIdx with
    | some idx =>
      if idx + 1 < h.entries.length then
        indexExtend foreign_entries (h.entries.drop (idx + 1))
      else foreign_entries
    | none => indexExtend foreign_entries h.entries
  .ok { h with entries := merged, last_on_disk := (merged.getLast?).map (fun p => p.1) }
    newFile

/-- `sync`'s body once `last_index_on_disk` has been resolved to a
position (`lastIdx`). -/
def syncCore (hash : Int → Str → Int) (env : FsEnv) (h : FileBackedHistory)
    (fileLines : List Str) (lastIdx : Option Nat) : SyncOutcome :=
  let range_start := match lastIdx with | some idx => idx + 1 | none => 0
  let own_entries := h.entries.drop range_start
  if env.createDirOk = false then .ioErr h
  else if env.openOk = false then .ioErr h
  else if env.lockOk = false then .ioErr h
  else if env.readOk = false then .ioErr h
  else
    let from_file := (readForeign hash fileLines).1
    if h.capacity < from_file.length + own_entries.length then
      let start := from_file.length + own_entries.length - h.capacity
      if from_file.length < start then .panicked
      else
        let foreign_entries := from_file.drop start
        if env.writeOk = false then .ioErr h
        else if env.flushOk = false then .ioErr h
        else if env.truncOk = false then .ioErr h
        else
          finishSync h foreign_entries lastIdx
            (foreign_entries.map (fun p => encode_entry p.2)
              ++ own_entries.map (fun p => encode_entry p.2))
    else
      if env.writeOk = false then .ioErr h
      else if env.flushOk = false then .ioErr h
      else
        finishSync h from_file lastIdx
          (fileLines ++ own_entries.map (fun p => encode_entry p.2))

/-- `History::sync for FileBackedHistory`. -/
def sync (hash : Int → Str → Int) (env : FsEnv) (h : FileBackedHistory)
    (fileLines : List Str) : SyncOutcome :=
  if h.hasFile = false then .ok h fileLines
  else
    match h.last_on_disk with
    | some id =>
      match getIndexOf h.entries id with
      | some idx => syncCore hash env h fileLines (some idx)
      | none => .panicked
    | none => syncCore hash env h fileLines none

/-! ## Concrete data used by the claims -/

/-- A hash function instance for concrete witnesses. -/
def zeroHash : Int → Str → Int := fun _ _ => 0

def lsStr : Str := ['l', 's']

/-- An in-memory store with capacity 1, a configured backing file, and
nothing synced yet. -/
def cap1Store : FileBackedHistory :=
  { capacity := 1, entries := [], hasFile := true
    last_on_disk := none, session := none }

/-- A lock-acquisition failure environment. -/
def envLockFail : FsEnv := { envOK with lockOk := false }

/-- A concrete store used by witnesses. -/
def witStore : FileBackedHistory :=
  { capacity := 5, entries := [(7, lsStr)], hasFile := true
    last_on_disk := none, session := none }

/-! ## Claims -/

/-- **C1.** The spec says the counter supplied to `decode_entry` is
strictly increasing across one read pass, making ids of identical lines at
distinct positions distinct, so no foreign entry is lost.  The code never
increments the counter: reading a file whose two lines are both `ls`
hashes both as `(0, "ls")`, so — for every hash function whatsoever — both
decode to the same identifier, the `IndexMap` collect collapses them, and
the read pass ends with a single foreign entry and the counter still 0. -/
theorem C1_read_pass_loses_duplicate_lines :
    ∀ hash : Int → Str → Int,
      readForeign hash [lsStr, lsStr] = ([(hash 0 lsStr, lsStr)], 0) := by
  intro hash
  simp [readForeign, decode_entry, indexInsert, lsStr, decodeText]

/-- **C2.** The spec says a sync over a file with N foreign lines and M
pending entries, N + M > capacity, leaves the file with exactly `capacity`
lines.  Because of the unincremented counter (C1), a file whose two lines
are both `ls` is decoded into a single foreign entry, the projected size 1
does not exceed the capacity 1, no truncation happens, and — for every
hash function — the sync succeeds leaving the file with its 2 lines,
exceeding the capacity of 1. -/
theorem C2_sync_misses_truncation_on_duplicate_lines :
    ∀ hash : Int → Str → Int,
      sync hash envOK cap1Store [lsStr, lsStr] =
        SyncOutcome.ok
          { capacity := 1, entries := [(hash 0 lsStr, lsStr)], hasFile := true
            last_on_disk := some (hash 0 lsStr), session := none }
          [lsStr, lsStr] := by
  intro hash
  simp [sync, cap1Store, syncCore, envOK, readForeign, decode_entry, indexInsert,
    finishSync, indexExtend, lsStr, decodeText]

/-- `syncCore` only reports an I/O error carrying the store it was given:
the code touches `self` only after the last fallible operation. -/
theorem syncCore_ioErr_eq (hash : Int → Str → Int) (env : FsEnv)
    (h : FileBackedHistory) (fileLines : List Str) (lastIdx : Option Nat)
    (h' : FileBackedHistory)
    (e : syncCore hash env h fileLines lastIdx = SyncOutcome.ioErr h') :
    h' = h := by
  simp only [syncCore] at e
  repeat' split at e
  all_goals
    first
      | exact SyncOutcome.noConfusion e
      | (injection e with e1; exact e1.symm)

/-- `sync` only reports an I/O error carrying the store it was given. -/
theorem sync_ioErr_store (hash : Int → Str → Int) (env : FsEnv)
    (h : FileBackedHistory) (fileLines : List Str) (h' : FileBackedHistory)
    (e : sync hash env h fileLines = SyncOutcome.ioErr h') : h' = h := by
  unfold sync at e
  split at e
  · exact SyncOutcome.noConfusion e
  · split at e
    · split at e
      · exact syncCore_ioErr_eq _ _ _ _ _ _ e
      · exact SyncOutcome.noConfusion e
    · exact syncCore_ioErr_eq _ _ _ _ _ _ e

/-- **C3.** Every `sync` call that returns an I/O or lock error (failed
directory creation, open, lock, read, write, flush or truncate) leaves the
in-memory store — entries and sync marker included — exactly as it was
before the call: the error outcome always carries the unmodified store. -/
theorem C3_sync_error_leaves_store_unchanged :
    ∀ (hash : Int → Str → Int) (env : FsEnv) (h : FileBackedHistory)
      (fileLines : List Str) (h' : FileBackedHistory),
      sync hash env h fileLines = SyncOutcome.ioErr h' → h' = h := by
  intro hash env h fileLines h' e
  exact sync_ioErr_store hash env h fileLines h' e

/-- Witness for C3: with the lock acquisition failing, `sync` on a
concrete store reports the I/O error and the store it carries is the
original one. -/
theorem C3_sync_error_leaves_store_unchanged_witness :
    (sync zeroHash envLockFail witStore [] = SyncOutcome.ioErr witStore) ∧
      witStore = witStore :=
  ⟨by decide,
   C3_sync_error_leaves_store_unchanged zeroHash envLockFail witStore [] witStore
     (by decide)⟩

/-- **C9.** `update` and `delete` return the feature-unsupported error for
every identifier, updater and store state, and leave the store — all
fields — untouched. -/
theorem C9_update_delete_unsupported_no_mutation :
    ∀ (h : FileBackedHistory) (id : Int) (f : HistoryItem → HistoryItem),
      update h id f =
        (.error (.historyFeatureUnsupported "FileBackedHistory" "updating entries"), h)
      ∧ delete h id =
        (.error (.historyFeatureUnsupported "FileBackedHistory" "removing entries"), h) :=
  fun _ _ _ => ⟨rfl, rfl⟩

/-- **C10.** When a backing file is configured and removing it fails,
`clear` still empties the entries and clears the sync marker, and the I/O
error is returned: the in-memory effects are unconditional. -/
theorem C10_clear_clears_memory_even_on_remove_failure :
    ∀ h : FileBackedHistory, h.hasFile = true →
      clear h false =
        (.error .ioError, { h with entries := [], last_on_disk := none }) := by
  intro h hf
  simp [clear, hf]

/-- Witness for C10 at a concrete store with a configured file. -/
theorem C10_clear_clears_memory_even_on_remove_failure_witness :
    clear witStore false =
      (.error .ioError, { witStore with entries := [], last_on_disk := none }) :=
  C10_clear_clears_memory_even_on_remove_failure witStore (by decide)

/-! ### Codec round trip (C5) -/

/-- `encodeText` output starting with a character other than `<` can only
come from that same character heading the input. -/
theorem encodeText_head_ne (x : Char) (rest t : Str) (hx : x ≠ '<')
    (he : encodeText rest = x :: t) : ∃ r2, rest = x :: r2 ∧ t = encodeText r2 := by
  cases rest with
  | nil => exact absurd he (by simp [encodeText])
  | cons d r2 =>
    by_cases hd : d = '\n'
    · subst hd
      simp only [encodeText, if_pos rfl] at he
      injection he with h1 _
      exact absurd h1.symm hx
    · simp only [encodeText, if_neg hd] at he
      injection he with h1 h2
      exact ⟨r2, by rw [← h1], h2.symm⟩

/-- If the encoding of `rest` starts with the last three sentinel
characters, `rest` itself starts with them. -/
theorem encodeText_take3_sentinel (rest : Str)
    (ht : (encodeText rest).take 3 = ['\\', 'n', '>']) :
    ∃ r4, rest = '\\' :: 'n' :: '>' :: r4 := by
  cases h1 : encodeText rest with
  | nil => rw [h1] at ht; exact absurd ht (by decide)
  | cons a t1 =>
    rw [h1] at ht
    simp only [List.take_succ_cons, List.cons.injEq] at ht
    obtain ⟨ha, ht1⟩ := ht
    subst ha
    obtain ⟨r2, hr2, ht2⟩ := encodeText_head_ne '\\' rest t1 (by decide) h1
    cases h2 : encodeText r2 with
    | nil => rw [ht2, h2] at ht1; exact absurd ht1 (by decide)
    | cons b t2 =>
      rw [ht2, h2, List.take_succ_cons, List.cons.injEq] at ht1
      obtain ⟨hb, ht2'⟩ := ht1
      subst hb
      obtain ⟨r3, hr3, ht3⟩ := encodeText_head_ne 'n' r2 t2 (by decide) h2
      cases h3 : encodeText r3 with
      | nil => rw [ht3, h3] at ht2'; exact absurd ht2' (by decide)
      | cons c t3 =>
        rw [ht3, h3, List.take_succ_cons, List.cons.injEq] at ht2'
        obtain ⟨hc, _⟩ := ht2'
        subst hc
        obtain ⟨r4, hr4, _⟩ := encodeText_head_ne '>' r3 t3 (by decide) h3
        exact ⟨r4, by rw [hr2, hr3, hr4]⟩

/-- A decoding step over a head that does not open a sentinel occurrence
just copies the head. -/
theorem decodeText_cons (c : Char) (t : Str)
    (hc : ¬(c = '<' ∧ t.take 3 = ['\\', 'n', '>'])) :
    decodeText (c :: t) = c :: decodeText t := by
  match t with
  | [] => rfl
  | [x] => rfl
  | [x, y] => rfl
  | x :: y :: z :: r =>
    simp only [decodeText]
    rw [if_neg]
    rintro ⟨h1, h2, h3, h4⟩
    exact hc ⟨h1, by rw [h2, h3, h4]; rfl⟩

/-- A list with the sentinel somewhere keeps it after consing a
character. -/
theorem hasNewlineEscape_cons_of (c : Char) (rest : Str)
    (h : hasNewlineEscape rest = true) : hasNewlineEscape (c :: rest) = true := by
  match rest with
  | [] => exact Bool.noConfusion h
  | [x] => exact Bool.noConfusion h
  | [x, y] => exact Bool.noConfusion h
  | x :: y :: z :: r =>
    simp only [hasNewlineEscape]
    split
    · rfl
    · exact h

/-- Sentinel-freedom passes to the tail. -/
theorem hasNewlineEscape_tail (c : Char) (rest : Str)
    (h : hasNewlineEscape (c :: rest) = false) : hasNewlineEscape rest = false := by
  cases hr : hasNewlineEscape rest with
  | false => rfl
  | true => rw [hasNewlineEscape_cons_of c rest hr] at h; exact Bool.noConfusion h

/-- Round trip of the codec on sentinel-free text. -/
theorem decodeText_encodeText (l : Str) (hl : hasNewlineEscape l = false) :
    decodeText (encodeText l) = l := by
  induction l with
  | nil => rfl
  | cons c rest ih =>
    have hrest : hasNewlineEscape rest = false := hasNewlineEscape_tail c rest hl
    by_cases hc : c = '\n'
    · subst hc
      simp [encodeText, decodeText, ih hrest]
    · simp only [encodeText, if_neg hc]
      by_cases hs : c = '<' ∧ (encodeText rest).take 3 = ['\\', 'n', '>']
      · obtain ⟨hc2, ht⟩ := hs
        obtain ⟨r4, hr4⟩ := encodeText_take3_sentinel rest ht
        subst hc2 hr4
        simp [hasNewlineEscape] at hl
      · rw [decodeText_cons c _ hs, ih hrest]

/-- **C5.** For every text without the sentinel substring `<\n>` and every
counter value, decoding the encoding of the text gives back the text:
`decode_entry(encode_entry(text), c).text == text`, whatever the hash
function. -/
theorem C5_decode_encode_roundtrip :
    ∀ (hash : Int → Str → Int) (text : Str) (c : Int),
      hasNewlineEscape text = false →
      (decode_entry hash (encode_entry text) c).1.2 = text := by
  intro hash text c h
  simpa [decode_entry, encode_entry] using decodeText_encodeText text h

/-- Witness for C5: the text `a\nb` (with a literal newline) is
sentinel-free and survives the round trip. -/
theorem C5_decode_encode_roundtrip_witness :
    (decode_entry zeroHash (encode_entry ['a', '\n', 'b']) 0).1.2 =
      ['a', '\n', 'b'] :=
  C5_decode_encode_roundtrip zeroHash ['a', '\n', 'b'] 0 (by decide)

/-! ### Save semantics (C4) -/

/-- The behavior of `save`/`replace` stated from the amended claim's
words: if the store is non-empty and its last-stored text equals the new
text, or the new text is empty, or capacity is zero, the store is
unchanged; otherwise, if the store is at capacity the single oldest entry
is evicted first, and then the new (identifier, text) pair is inserted at
the end when the identifier is not already present, while a present
identifier has its text updated in place at its existing position. -/
def saveSpec (h : FileBackedHistory) (item : HistoryItem) : FileBackedHistory :=
  if (h.entries ≠ [] ∧ (h.entries.getLast?).map (fun p => p.2) = some item.command_line)
      ∨ item.command_line = [] ∨ h.capacity = 0 then h
  else
    let afterEvict := if h.entries.length < h.capacity then h.entries else h.entries.tail
    let entries' :=
      if afterEvict.any (fun p => p.1 = item.id) then
        afterEvict.map (fun p => if p.1 = item.id then (item.id, item.command_line) else p)
      else afterEvict ++ [(item.id, item.command_line)]
    { h with entries := entries' }

/-- `save`'s guard is the negation of the spec-side skip condition. -/
theorem saveGuard_iff (h : FileBackedHistory) (entry : Str) :
    saveGuard h entry = true ↔
      ¬((h.entries ≠ [] ∧ (h.entries.getLast?).map (fun p => p.2) = some entry)
          ∨ entry = [] ∨ h.capacity = 0) := by
  unfold saveGuard
  cases hl : h.entries.getLast? with
  | none =>
    have hnil : h.entries = [] := List.getLast?_eq_none_iff.mp hl
    simp [hnil, Nat.pos_iff_ne_zero]
  | some p =>
    have hne : h.entries ≠ [] := by
      intro hh
      rw [hh] at hl
      exact Option.noConfusion hl
    simp [hne, Nat.pos_iff_ne_zero]
    tauto

/-- Removing the first entry by its own key drops exactly the head. -/
theorem eraseP_head (p : Int × Str) (t : List (Int × Str)) :
    (p :: t).eraseP (fun q => q.1 = p.1) = t :=
  List.eraseP_cons_of_pos (by simp)

/-- `save` computes exactly the spec-side description `saveSpec` (and
always returns success). -/
theorem save_eq_saveSpec (h : FileBackedHistory) (item : HistoryItem) :
    save h item = .ok (saveSpec h item) := by
  by_cases hg : saveGuard h item.command_line = true
  · have hng := (saveGuard_iff h item.command_line).mp hg
    have hcap : 0 < h.capacity := by
      rcases Nat.eq_zero_or_pos h.capacity with h0 | h0
      · exact absurd (Or.inr (Or.inr h0)) hng
      · exact h0
    unfold save saveSpec
    rw [if_pos hg, if_neg hng]
    cases hent : h.entries with
    | nil =>
      simp [indexInsert]
    | cons p t =>
      by_cases hfull : h.capacity ≤ (p :: t).length
      · rw [if_pos hfull, if_neg (by omega)]
        simp [eraseP_head, indexInsert]
        rw [eraseP_head]
      · rw [if_neg hfull, if_pos (by omega)]
        simp [indexInsert]
  · have hval : (h.entries ≠ [] ∧ (h.entries.getLast?).map (fun p => p.2)
        = some item.command_line) ∨ item.command_line = [] ∨ h.capacity = 0 := by
      by_contra hcon
      exact hg ((saveGuard_iff h item.command_line).mpr hcon)
    unfold save saveSpec
    rw [if_neg hg, if_pos hval]

deriving instance DecidableEq for Except

/-- Sequential `save` calls, stopping at the first error (none occurs:
`save` always succeeds). -/
def saveSeq (h : FileBackedHistory) :
    List HistoryItem → Except ReedlineErrorVariants FileBackedHistory
  | [] => .ok h
  | it :: rest =>
    match save h it with
    | .ok h' => saveSeq h' rest
    | .error e => .error e

/-- A fresh in-memory store of capacity 3. -/
def cap3Store : FileBackedHistory :=
  { capacity := 3, entries := [], hasFile := false
    last_on_disk := none, session := none }

/-- A store of capacity 3 holding one entry with identifier 1. -/
def dupStore : FileBackedHistory :=
  { capacity := 3, entries := [(1, ['a'])], hasFile := false
    last_on_disk := none, session := none }

/-- Counterexample to C4 as stated: saving text `b` under the identifier 1
that is already stored (with text `a`) updates the existing entry in
place — the store becomes `[(1, b)]` — rather than inserting the new
(identifier, text) pair at the end, which would give `[(1, a), (1, b)]`. -/
theorem C4_save_at_end_counterexample :
    save dupStore (construct_entry 1 ['b']) =
      .ok { dupStore with entries := [(1, ['b'])] }
    ∧ ¬(save dupStore (construct_entry 1 ['b']) =
        .ok { dupStore with entries := dupStore.entries ++ [(1, ['b'])] }) := by
  decide

/-- **C4 (amended).** `save` and `replace` always succeed and compute
exactly `saveSpec`: skip when the last text equals the new text, the text
is empty, or capacity is zero; otherwise evict the single oldest entry
when at capacity, then insert the (identifier, text) pair at the end when
the identifier is new, or update the existing entry's text in place when
the identifier is already present.  In particular, with capacity 3, saving
`a`, `b`, `c`, `d` under fresh identifiers leaves exactly `[b, c, d]`, in
that order. -/
theorem C4_save_follows_saveSpec :
    (∀ (h : FileBackedHistory) (item : HistoryItem),
        save h item = .ok (saveSpec h item)
          ∧ replace h item = .ok (saveSpec h item))
    ∧ saveSeq cap3Store
        [construct_entry 1 ['a'], construct_entry 2 ['b'],
          construct_entry 3 ['c'], construct_entry 4 ['d']] =
      .ok { cap3Store with entries := [(2, ['b']), (3, ['c']), (4, ['d'])] } :=
  ⟨fun h item => ⟨save_eq_saveSpec h item, save_eq_saveSpec h item⟩, by decide⟩

/-! ### Search without identifier bounds (C6) -/

/-- The spec-side cap: at most `limit` results, everything when the limit
is absent (a negative limit fails the `usize` conversion and also means
no cap). -/
def applyLimit (lim : Option Int) (l : List HistoryItem) : List HistoryItem :=
  match lim with
  | some i => if 0 ≤ i then l.take i.toNat else l
  | none => l

/-- The iterator `skip(0).take(1 + (len - 1))` covers the whole store. -/
theorem take_full_range {α : Type} (l : List α) :
    l.take (1 + (l.length - 1)) = l := by
  cases l with
  | nil => rfl
  | cons a t =>
    have h1 : 1 + ((a :: t).length - 1) = (a :: t).length := by
      simp
      omega
    rw [h1, List.take_length]

/-- A query with no identifier bounds and only command-line filters. -/
def plainQuery (dir : SearchDirection) (lim : Option Int)
    (cl : Option CommandLineSearch) (ncl : Option Str) : SearchQuery :=
  { direction := dir, start_time := none, end_time := none
    start_id := none, end_id := none, limit := lim
    filter := { command_line := cl, not_command_line := ncl, hostname := none
                cwd_exact := none, cwd_prefix := none, exit_successful := none } }

/-- The store of the concrete C6 examples. -/
def searchStore : FileBackedHistory :=
  { capacity := 10
    entries := [(1, "git status".toList), (2, "go build".toList), (3, "ls".toList)]
    hasFile := false, last_on_disk := none, session := none }

/-- The `Prefix("g")` command-line filter. -/
def prefixG : Option CommandLineSearch := some (.Prefix "g".toList)

/-- **C6.** A query without identifier bounds spans the full position
range: `search` succeeds and returns exactly the entries matched by the
command-line predicate and the not-command-line exclusion, in storage
order for Forward and reversed storage order for Backward, capped at the
limit (uncapped when absent or negative).  On the store
`["git status", "go build", "ls"]`, Prefix("g") Forward gives
`["git status", "go build"]`, the same with limit 1 gives
`["git status"]`, and Backward without limit gives
`["go build", "git status"]`. -/
theorem C6_search_full_range :
    (∀ (h : FileBackedHistory) (dir : SearchDirection) (lim : Option Int)
        (cl : Option CommandLineSearch) (ncl : Option Str),
        h.entries.length ≤ USIZE_MAX →
        search h (plainQuery dir lim cl ncl) =
          .ok (applyLimit lim
            ((match dir with
              | .Forward => h.entries
              | .Backward => h.entries.reverse).filterMap
                (filterEntry (plainQuery dir lim cl ncl).filter))))
    ∧ search searchStore (plainQuery .Forward none prefixG none) =
        .ok [construct_entry 1 "git status".toList,
          construct_entry 2 "go build".toList]
    ∧ search searchStore (plainQuery .Forward (some 1) prefixG none) =
        .ok [construct_entry 1 "git status".toList]
    ∧ search searchStore (plainQuery .Backward none prefixG none) =
        .ok [construct_entry 2 "go build".toList,
          construct_entry 1 "git status".toList] := by
  refine ⟨?_, by decide, by decide, by decide⟩
  intro h dir lim cl ncl hlen
  have hfm : ∀ l : List (Int × Str),
      l.length ≤ USIZE_MAX →
      (l.filterMap (filterEntry (plainQuery dir lim cl ncl).filter)).take USIZE_MAX =
        l.filterMap (filterEntry (plainQuery dir lim cl ncl).filter) := by
    intro l hl
    exact List.take_of_length_le (le_trans (List.length_filterMap_le _ _) hl)
  cases dir with
  | Forward =>
    simp only [search, plainQuery, timeUnsupported, extraUnsupported, swappedIds,
      resolveIdx, Option.isSome_none, Bool.or_self, Bool.or_false, Bool.false_or,
      Bool.false_eq_true, if_false, Nat.sub_zero, List.drop_zero, take_full_range]
    rw [if_pos (Nat.zero_le _)]
    cases lim with
    | none =>
      simp only [limitToNat, applyLimit]
      exact congrArg SearchOutcome.ok (hfm h.entries hlen)
    | some i =>
      by_cases hi : 0 ≤ i
      · simp only [limitToNat, if_pos hi, applyLimit]
      · simp only [limitToNat, if_neg hi, applyLimit]
        exact congrArg SearchOutcome.ok (hfm h.entries hlen)
  | Backward =>
    simp only [search, plainQuery, timeUnsupported, extraUnsupported, swappedIds,
      resolveIdx, Option.isSome_none, Bool.or_self, Bool.or_false, Bool.false_or,
      Bool.false_eq_true, if_false, Nat.sub_zero, List.drop_zero, take_full_range]
    rw [if_pos (Nat.zero_le _)]
    cases lim with
    | none =>
      simp only [limitToNat, applyLimit]
      exact congrArg SearchOutcome.ok
        (hfm h.entries.reverse (by rw [List.length_reverse]; exact hlen))
    | some i =>
      by_cases hi : 0 ≤ i
      · simp only [limitToNat, if_pos hi, applyLimit]
      · simp only [limitToNat, if_neg hi, applyLimit]
        exact congrArg SearchOutcome.ok
          (hfm h.entries.reverse (by rw [List.length_reverse]; exact hlen))

/-! ### The range assertion in search (C8) -/

/-- A store holding identifiers 1 then 2. -/
def crashStore : FileBackedHistory :=
  { capacity := 10, entries := [(1, ['a']), (2, ['b'])], hasFile := false
    last_on_disk := none, session := none }

/-- A Forward query whose `start_id` (2) is stored after its `end_id`
(1): both identifiers are present, yet the resolved start position 1
exceeds the resolved end position 0. -/
def crashQuery : SearchQuery :=
  { direction := .Forward, start_time := none, end_time := none
    start_id := some 2, end_id := some 1, limit := none
    filter := { command_line := none, not_command_line := none, hostname := none
                cwd_exact := none, cwd_prefix := none, exit_successful := none } }

/-- **C8.** `search` crashes through the unchecked `assert!` exactly when
the query passes the time and extra-info guards, both identifier bounds
(after the Backward swap) resolve, and the resolved start position
exceeds the resolved end position; whenever the resolved start is ≤ the
resolved end the assertion holds and `search` does not crash.  A crashing
input with both identifiers present exists: a Forward query whose
`start_id` is stored after its `end_id`. -/
theorem C8_search_panics_iff_start_gt_end :
    (∀ (h : FileBackedHistory) (q : SearchQuery),
        search h q = .panicked ↔
          timeUnsupported q = false ∧ extraUnsupported q = false ∧
            ∃ s e : Nat,
              resolveIdx h (swappedIds q).1 0
                  "provided 'start_id' item was not found" = .ok s
                ∧ resolveIdx h (swappedIds q).2 (h.entries.length - 1)
                    "provided 'end_id' item was not found" = .ok e
                ∧ e < s)
    ∧ search crashStore crashQuery = .panicked := by
  refine ⟨?_, by decide⟩
  intro h q
  unfold search
  by_cases tg : timeUnsupported q = true
  · rw [if_pos tg]
    simp [tg]
  · have tgf : timeUnsupported q = false := by simpa using tg
    rw [if_neg tg]
    by_cases eg : extraUnsupported q = true
    · rw [if_pos eg]
      simp [eg]
    · have egf : extraUnsupported q = false := by simpa using eg
      rw [if_neg eg]
      cases hs : resolveIdx h (swappedIds q).1 0
          "provided 'start_id' item was not found" with
      | error e1 => simp [hs]
      | ok s =>
        cases he : resolveIdx h (swappedIds q).2 (h.entries.length - 1)
            "provided 'end_id' item was not found" with
        | error e2 => simp [hs, he]
        | ok e2 =>
          simp only [hs, he]
          by_cases hle : s ≤ e2
          · rw [if_pos hle]
            constructor
            · intro hcon
              exact absurd hcon (by simp)
            · rintro ⟨-, -, s', e', hs', he', hlt⟩
              injection hs' with h1
              injection he' with h2
              exact absurd hlt (by omega)
          · rw [if_neg hle]
            exact ⟨fun _ => ⟨tgf, egf, s, e2, rfl, rfl, by omega⟩, fun _ => rfl⟩

/-! ### Capacity invariant (C7) -/

/-- Inserting grows the map by at most one entry. -/
theorem indexInsert_length_le (m : List (Int × Str)) (k : Int) (v : Str) :
    (indexInsert m k v).length ≤ m.length + 1 := by
  unfold indexInsert
  split
  · rw [List.length_map]
    omega
  · rw [List.length_append]
    simp

/-- Extending grows the map by at most the number of new pairs. -/
theorem indexExtend_length_le (xs : List (Int × Str)) :
    ∀ m : List (Int × Str), (indexExtend m xs).length ≤ m.length + xs.length := by
  induction xs with
  | nil =>
    intro m
    simp [indexExtend]
  | cons p t ih =>
    intro m
    have h1 : indexExtend m (p :: t) = indexExtend (indexInsert m p.1 p.2) t := rfl
    rw [h1]
    calc (indexExtend (indexInsert m p.1 p.2) t).length
        ≤ (indexInsert m p.1 p.2).length + t.length := ih _
      _ ≤ (m.length + 1) + t.length :=
          Nat.add_le_add_right (indexInsert_length_le m p.1 p.2) _
      _ = m.length + (p :: t).length := by simp; omega

/-- What `finishSync` produces with a resolved sync marker. -/
theorem finishSync_ok_some (h : FileBackedHistory)
    (foreign : List (Int × Str)) (idx : Nat) (nf : List Str)
    (h' : FileBackedHistory) (nf' : List Str)
    (he : finishSync h foreign (some idx) nf = SyncOutcome.ok h' nf') :
    h'.capacity = h.capacity
      ∧ h'.entries.length ≤ foreign.length + (h.entries.drop (idx + 1)).length := by
  simp only [finishSync] at he
  split at he
  · injection he with e1 e2
    subst e1
    exact ⟨rfl, indexExtend_length_le _ _⟩
  · injection he with e1 e2
    subst e1
    exact ⟨rfl, Nat.le_add_right _ _⟩

/-- What `finishSync` produces with no sync marker. -/
theorem finishSync_ok_none (h : FileBackedHistory)
    (foreign : List (Int × Str)) (nf : List Str)
    (h' : FileBackedHistory) (nf' : List Str)
    (he : finishSync h foreign none nf = SyncOutcome.ok h' nf') :
    h'.capacity = h.capacity
      ∧ h'.entries.length ≤ foreign.length + h.entries.length := by
  simp only [finishSync] at he
  injection he with e1 e2
  subst e1
  exact ⟨rfl, indexExtend_length_le _ _⟩

set_option maxHeartbeats 1000000 in
/-- A successful `syncCore` keeps the capacity and stays within it. -/
theorem syncCore_ok_length (hash : Int → Str → Int) (env : FsEnv)
    (h : FileBackedHistory) (fileLines : List Str) (lastIdx : Option Nat)
    (h' : FileBackedHistory) (nf : List Str)
    (hle : h.entries.length ≤ h.capacity)
    (hok : syncCore hash env h fileLines lastIdx = SyncOutcome.ok h' nf) :
    h'.capacity = h.capacity ∧ h'.entries.length ≤ h.capacity := by
  cases lastIdx with
  | some idx =>
    simp only [syncCore] at hok
    repeat' split at hok
    all_goals
      first
        | exact SyncOutcome.noConfusion hok
        | (obtain ⟨hcap, hlen2⟩ := finishSync_ok_some _ _ _ _ _ _ hok
           refine ⟨hcap, ?_⟩
           simp only [List.length_drop] at *
           omega)
  | none =>
    simp only [syncCore] at hok
    repeat' split at hok
    all_goals
      first
        | exact SyncOutcome.noConfusion hok
        | (obtain ⟨hcap, hlen2⟩ := finishSync_ok_none _ _ _ _ _ hok
           refine ⟨hcap, ?_⟩
           simp only [List.length_drop] at *
           omega)

/-- A successful `sync` keeps the capacity and stays within it. -/
theorem sync_ok_length (hash : Int → Str → Int) (env : FsEnv)
    (h : FileBackedHistory) (fileLines : List Str)
    (h' : FileBackedHistory) (nf : List Str)
    (hle : h.entries.length ≤ h.capacity)
    (hok : sync hash env h fileLines = SyncOutcome.ok h' nf) :
    h'.capacity = h.capacity ∧ h'.entries.length ≤ h.capacity := by
  unfold sync at hok
  split at hok
  · injection hok with e1 e2
    subst e1
    exact ⟨rfl, hle⟩
  · split at hok
    · split at hok
      · exact syncCore_ok_length _ _ _ _ _ _ _ hle hok
      · exact SyncOutcome.noConfusion hok
    · exact syncCore_ok_length _ _ _ _ _ _ _ hle hok

/-- `saveSpec` never changes the capacity. -/
theorem saveSpec_capacity (h : FileBackedHistory) (item : HistoryItem) :
    (saveSpec h item).capacity = h.capacity := by
  unfold saveSpec
  split
  · rfl
  · rfl

/-- `saveSpec` keeps the store within its capacity. -/
theorem saveSpec_length (h : FileBackedHistory) (item : HistoryItem)
    (hle : h.entries.length ≤ h.capacity) :
    (saveSpec h item).entries.length ≤ h.capacity := by
  unfold saveSpec
  split
  · exact hle
  · rename_i hng
    have hcap0 : h.capacity ≠ 0 := fun hc => hng (Or.inr (Or.inr hc))
    by_cases hA : h.entries.length < h.capacity
    · simp only [if_pos hA]
      split
      · rw [List.length_map]
        omega
      · rw [List.length_append]
        simp
        omega
    · simp only [if_neg hA]
      split
      · rw [List.length_map, List.length_tail]
        omega
      · rw [List.length_append, List.length_tail]
        simp
        omega

/-- The second component of `clear` is always the emptied store. -/
theorem clear_store (h : FileBackedHistory) (removeOk : Bool) :
    (clear h removeOk).2 = { h with entries := [], last_on_disk := none } := by
  unfold clear
  split
  · rfl
  · rfl

/-- One capability-contract operation with the external inputs it
consumes (`sync` additionally takes the I/O environment and the backing
file's current lines; `clear` takes whether removing the file succeeds). -/
inductive Op where
  | save (item : HistoryItem)
  | replace (item : HistoryItem)
  | sync (env : FsEnv) (fileLines : List Str)
  | clear (removeOk : Bool)
  | load (id : Int)
  | search (q : SearchQuery)
  | count (q : SearchQuery)

/-- The store after one operation; `none` when the operation crashes. -/
def applyOp (hash : Int → Str → Int) (h : FileBackedHistory) : Op → Option FileBackedHistory
  | .save item =>
    match save h item with
    | .ok h' => some h'
    | .error _ => none
  | .replace item =>
    match replace h item with
    | .ok h' => some h'
    | .error _ => none
  | .sync env fileLines =>
    match sync hash env h fileLines with
    | .ok h' _ => some h'
    | .ioErr h' => some h'
    | .panicked => none
  | .clear removeOk => some (clear h removeOk).2
  | .load _ => some h
  | .search _ => some h
  | .count _ => some h

/-- A sequence of operations, stopped by a crash. -/
def runOps (hash : Int → Str → Int) (h : FileBackedHistory) :
    List Op → Option FileBackedHistory
  | [] => some h
  | op :: rest =>
    match applyOp hash h op with
    | some h' => runOps hash h' rest
    | none => none

/-- Each operation keeps the capacity field and the size bound. -/
theorem applyOp_inv (hash : Int → Str → Int) (h : FileBackedHistory) (op : Op)
    (h' : FileBackedHistory) (hle : h.entries.length ≤ h.capacity)
    (happ : applyOp hash h op = some h') :
    h'.capacity = h.capacity ∧ h'.entries.length ≤ h.capacity := by
  cases op with
  | save item =>
    simp only [applyOp, save_eq_saveSpec] at happ
    injection happ with e1
    subst e1
    exact ⟨saveSpec_capacity h item, saveSpec_length h item hle⟩
  | replace item =>
    simp only [applyOp, replace, save_eq_saveSpec] at happ
    injection happ with e1
    subst e1
    exact ⟨saveSpec_capacity h item, saveSpec_length h item hle⟩
  | sync env fileLines =>
    simp only [applyOp] at happ
    cases hs : Reedline.sync hash env h fileLines with
    | ok h2 nf =>
      rw [hs] at happ
      injection happ with e1
      subst e1
      exact sync_ok_length _ _ _ _ _ _ hle hs
    | ioErr h2 =>
      rw [hs] at happ
      injection happ with e1
      subst e1
      have := sync_ioErr_store _ _ _ _ _ hs
      subst this
      exact ⟨rfl, hle⟩
    | panicked =>
      rw [hs] at happ
      exact Option.noConfusion happ
  | clear removeOk =>
    simp only [applyOp, clear_store] at happ
    injection happ with e1
    subst e1
    exact ⟨rfl, by simp⟩
  | load id =>
    injection happ with e1
    subst e1
    exact ⟨rfl, hle⟩
  | search q =>
    injection happ with e1
    subst e1
    exact ⟨rfl, hle⟩
  | count q =>
    injection happ with e1
    subst e1
    exact ⟨rfl, hle⟩

/-- Sequences of operations keep the capacity field and the size bound. -/
theorem runOps_inv (hash : Int → Str → Int) :
    ∀ (ops : List Op) (h h' : FileBackedHistory),
      h.entries.length ≤ h.capacity → runOps hash h ops = some h' →
      h'.capacity = h.capacity ∧ h'.entries.length ≤ h.capacity := by
  intro ops
  induction ops with
  | nil =>
    intro h h' hle e
    injection e with e1
    subst e1
    exact ⟨rfl, hle⟩
  | cons op rest ih =>
    intro h h' hle e
    unfold runOps at e
    cases ha : applyOp hash h op with
    | none => rw [ha] at e; exact Option.noConfusion e
    | some hm =>
      rw [ha] at e
      obtain ⟨hc1, hl1⟩ := applyOp_inv hash h op hm hle ha
      obtain ⟨hc2, hl2⟩ := ih hm h' (by rw [hc1]; exact hl1) e
      rw [hc1] at hc2 hl2
      exact ⟨hc2, hl2⟩

/-- A capacity-2 store with a configured file, and an operation sequence
exercising save, eviction, sync and clear. -/
def c2Store : FileBackedHistory :=
  { capacity := 2, entries := [], hasFile := true
    last_on_disk := none, session := none }

def exOps : List Op :=
  [.save (construct_entry 1 ['a']), .save (construct_entry 2 ['b']),
    .save (construct_entry 3 ['c']), .sync envOK [], .clear false]

/-- **C7.** A store constructed with capacity `c` never holds more than
`c` entries, across every sequence of save/replace/sync/clear/load/
search/count operations; when an admission happens at capacity, exactly
the single oldest entry is evicted (the store becomes its own tail)
before the new pair is inserted.  The final conjunct runs a concrete
crash-free sequence within capacity 2. -/
theorem C7_capacity_never_exceeded :
    (∀ (hash : Int → Str → Int) (c : Nat) (h0 h' : FileBackedHistory)
        (hf : Bool) (ops : List Op),
        FileBackedHistory.new c = .ok h0 →
        runOps hash { h0 with hasFile := hf } ops = some h' →
        h'.entries.length ≤ c)
    ∧ (∀ (h : FileBackedHistory) (item : HistoryItem) (p : Int × Str)
        (t : List (Int × Str)),
        h.entries = p :: t →
        h.capacity ≤ h.entries.length →
        saveGuard h item.command_line = true →
        save h item = .ok { h with entries := indexInsert t item.id item.command_line })
    ∧ runOps zeroHash c2Store exOps =
        some { c2Store with entries := [], last_on_disk := none } := by
  refine ⟨?_, ?_, by decide⟩
  · intro hash c h0 h' hf ops hnew hrun
    unfold FileBackedHistory.new at hnew
    split at hnew
    · exact Except.noConfusion hnew
    · injection hnew with e1
      subst e1
      have := runOps_inv hash ops _ h' (by simp) hrun
      simpa using this.2
  · intro h item p t hent hfull hg
    unfold save
    rw [if_pos hg, hent]
    rw [if_pos (by rw [hent] at hfull; exact hfull)]
    simp only [eraseP_head]

end Reedline
